import Mathlib

/-!
Shallow embedding of StratoVirt's asynchronous I/O engine
(`util/src/aio/mod.rs`) and of the virtio-serial control/data handlers
(`virtio/src/device/serial.rs`), together with theorems about their
behaviour.

Conventions of the embedding:
* Host memory is a total map from byte addresses to byte values
  (`Mem := Nat → Nat`); raw slice writes cannot fail (in the source,
  `Write for &mut [u8]` on an exactly-sized slice never errors).
* Machine integers (`u64`, `usize`, `u32`) are modelled as `Nat`;
  the one place where a truncating cast is observable
  (`nbytes as i64` in `Aio::handle`) is modelled explicitly by `toI64`.
* Fallible external collaborators (the kernel raw read/write, the AIO
  backend `submit`, memory allocation) are modelled as oracle inputs,
  so that every theorem quantifies over all of their possible answers.
* Completion callbacks are modelled by an emitted trace of
  `(user_data, result)` pairs; one trace entry per `complete_func` call.
-/

namespace StratoVirt

/-- Host memory: byte address to byte value. -/
abbrev Mem := Nat → Nat

/-- Scatter/gather descriptor, from `pub struct Iovec` in `util/src/aio/mod.rs`. -/
structure Iovec where
  iov_base : Nat
  iov_len : Nat
deriving Repr, DecidableEq

/-- Update one byte of memory. -/
def memSet (mem : Mem) (addr v : Nat) : Mem :=
  fun x => if x = addr then v else mem x

/-- Write a list of bytes to memory starting at `addr`. -/
def writeBytes (mem : Mem) (addr : Nat) : List Nat → Mem
  | [] => mem
  | b :: bs => writeBytes (memSet mem addr b) (addr + 1) bs

/-- Read `n` bytes of memory starting at `addr`. -/
def readBytes (mem : Mem) (addr n : Nat) : List Nat :=
  (List.range n).map (fun i => mem (addr + i))

/-- Embeds `mem_from_buf`: copy the flat buffer `buf` to host address `hva`.
In the source the underlying slice write is infallible (the destination
slice is constructed with exactly `buf.len()` bytes). -/
def mem_from_buf (buf : List Nat) (hva : Nat) (mem : Mem) : Mem :=
  writeBytes mem hva buf

/-- Embeds `mem_to_buf`: read `n` bytes from host address `hva`. -/
def mem_to_buf (n : Nat) (hva : Nat) (mem : Mem) : List Nat :=
  readBytes mem hva n

/-- Total byte length of an iovec list. -/
def sumLens (iovec : List Iovec) : Nat :=
  (iovec.map (fun iov => iov.iov_len)).sum

/-- Overwrite `buf[start .. start + bytes.length)` with `bytes`. -/
def overwrite (buf : List Nat) (start : Nat) (bytes : List Nat) : List Nat :=
  buf.take start ++ bytes ++ buf.drop (start + bytes.length)

/-- Loop of `iov_from_buf_direct`: `start`/`en` mirror the `start`/`end`
mutable locals of the source; returns final memory and the returned count. -/
def iov_from_buf_loop (buf : List Nat) : List Iovec → Nat → Nat → Mem → Mem × Nat
  | [], _, en, mem => (mem, en)
  | iov :: rest, start, _, mem =>
    let en := min (start + iov.iov_len) buf.length
    let mem := mem_from_buf ((buf.drop start).take (en - start)) iov.iov_base mem
    if buf.length ≤ en then (mem, en)
    else iov_from_buf_loop buf rest en en mem

/-- Embeds `iov_from_buf_direct`: scatter the flat buffer `buf` across the
iovec list, returning the number of bytes written. -/
def iov_from_buf_direct (iovec : List Iovec) (buf : List Nat) (mem : Mem) : Mem × Nat :=
  iov_from_buf_loop buf iovec 0 0 mem

/-- Loop of `iov_to_buf_direct`. -/
def iov_to_buf_loop (mem : Mem) : List Iovec → Nat → Nat → List Nat → List Nat × Nat
  | [], _, en, buf => (buf, en)
  | iov :: rest, start, _, buf =>
    let en := min (start + iov.iov_len) buf.length
    let buf := overwrite buf start (mem_to_buf (en - start) iov.iov_base mem)
    if buf.length ≤ en then (buf, en)
    else iov_to_buf_loop mem rest en en buf

/-- Embeds `iov_to_buf_direct`: gather the iovec list into the flat buffer
`buf` (whose length is fixed), returning the number of bytes read. -/
def iov_to_buf_direct (iovec : List Iovec) (buf : List Nat) (mem : Mem) : List Nat × Nat :=
  iov_to_buf_loop mem iovec 0 0 buf

lemma overwrite_length (buf : List Nat) (start : Nat) (bytes : List Nat)
    (h : start + bytes.length ≤ buf.length) :
    (overwrite buf start bytes).length = buf.length := by
  simp only [overwrite, List.length_append, List.length_take, List.length_drop]
  omega

lemma iov_from_buf_loop_count (buf : List Nat) (iovec : List Iovec) :
    ∀ start mem, start ≤ buf.length → iovec ≠ [] →
      (iov_from_buf_loop buf iovec start start mem).2
        = min (start + sumLens iovec) buf.length := by
  induction iovec with
  | nil => intro _ _ _ h; exact absurd rfl h
  | cons iov rest ih =>
    intro start mem hs _
    simp only [iov_from_buf_loop]
    by_cases hend : buf.length ≤ min (start + iov.iov_len) buf.length
    · simp only [if_pos hend, sumLens, List.map_cons, List.sum_cons]
      omega
    · simp only [if_neg hend]
      have hlt : min (start + iov.iov_len) buf.length = start + iov.iov_len := by omega
      by_cases hne : rest = []
      · subst hne
        simp only [iov_from_buf_loop]
        simp only [sumLens, List.map_cons, List.map_nil, List.sum_cons, List.sum_nil]
        omega
      · rw [ih (min (start + iov.iov_len) buf.length) _ (by omega) hne]
        simp only [sumLens, List.map_cons, List.sum_cons]
        omega

lemma iov_to_buf_loop_count (mem : Mem) (iovec : List Iovec) :
    ∀ start (buf : List Nat), start ≤ buf.length → iovec ≠ [] →
      (iov_to_buf_loop mem iovec start start buf).2
        = min (start + sumLens iovec) buf.length := by
  induction iovec with
  | nil => intro _ _ _ h; exact absurd rfl h
  | cons iov rest ih =>
    intro start buf hs _
    simp only [iov_to_buf_loop]
    have hlenpres :
        (overwrite buf start (mem_to_buf (min (start + iov.iov_len) buf.length - start)
          iov.iov_base mem)).length = buf.length := by
      apply overwrite_length
      simp only [mem_to_buf, readBytes, List.length_map, List.length_range]
      omega
    by_cases hend :
        (overwrite buf start (mem_to_buf (min (start + iov.iov_len) buf.length - start)
          iov.iov_base mem)).length ≤ min (start + iov.iov_len) buf.length
    · simp only [if_pos hend]
      rw [hlenpres] at hend
      simp only [sumLens, List.map_cons, List.sum_cons]
      omega
    · simp only [if_neg hend]
      rw [hlenpres] at hend
      have hlt : min (start + iov.iov_len) buf.length = start + iov.iov_len := by omega
      by_cases hne : rest = []
      · subst hne
        simp only [iov_to_buf_loop]
        simp only [sumLens, List.map_cons, List.map_nil, List.sum_cons, List.sum_nil]
        omega
      · rw [ih (min (start + iov.iov_len) buf.length) _ (by omega) hne]
        simp only [sumLens, List.map_cons, List.sum_cons]
        rw [hlenpres]
        omega

lemma iov_from_buf_direct_count (iovec : List Iovec) (buf : List Nat) (mem : Mem) :
    (iov_from_buf_direct iovec buf mem).2 = min (sumLens iovec) buf.length := by
  rcases iovec with _ | ⟨iov, rest⟩
  · simp [iov_from_buf_direct, iov_from_buf_loop, sumLens]
  · have := iov_from_buf_loop_count buf (iov :: rest) 0 mem (Nat.zero_le _) (by simp)
    simpa [iov_from_buf_direct] using this

lemma iov_to_buf_direct_count (iovec : List Iovec) (buf : List Nat) (mem : Mem) :
    (iov_to_buf_direct iovec buf mem).2 = min (sumLens iovec) buf.length := by
  rcases iovec with _ | ⟨iov, rest⟩
  · simp [iov_to_buf_direct, iov_to_buf_loop, sumLens]
  · have := iov_to_buf_loop_count mem (iov :: rest) 0 buf (Nat.zero_le _) (by simp)
    simpa [iov_to_buf_direct] using this

/-- C8: for every iovec list and flat buffer (memory copies always succeed in
the model, as in the source where the destination slices are exactly sized),
`iov_from_buf_direct` and `iov_to_buf_direct` copy byte-granularly and each
return the minimum of the total iovec length and the buffer length: they stop
at the shorter of the two and report the bytes actually transferred. -/
theorem c8_iov_copy_returns_min (iovec : List Iovec) (buf : List Nat) (mem : Mem) :
    (iov_from_buf_direct iovec buf mem).2 = min (sumLens iovec) buf.length ∧
    (iov_to_buf_direct iovec buf mem).2 = min (sumLens iovec) buf.length := by
  exact ⟨iov_from_buf_direct_count iovec buf mem, iov_to_buf_direct_count iovec buf mem⟩

/-!
Virtio-serial control handler, from `virtio/src/device/serial.rs`.
The host-to-guest control queue (q2) is an external collaborator in the
spec; a message sent through `send_input_control_msg` is modelled as one
`CtrlMsg` appended to the emitted-message list, carrying the same fields
and extra payload that the source packs into the descriptor chain.
Port names are modelled by their UTF-8 byte sequence.
-/

def VIRTIO_CONSOLE_DEVICE_READY : Nat := 0
def VIRTIO_CONSOLE_PORT_ADD : Nat := 1
def VIRTIO_CONSOLE_PORT_REMOVE : Nat := 2
def VIRTIO_CONSOLE_PORT_READY : Nat := 3
def VIRTIO_CONSOLE_CONSOLE_PORT : Nat := 4
def VIRTIO_CONSOLE_RESIZE : Nat := 5
def VIRTIO_CONSOLE_PORT_OPEN : Nat := 6
def VIRTIO_CONSOLE_PORT_NAME : Nat := 7

/-- State of one serial port relevant to the control protocol,
from `pub struct SerialPort` (chardev and handler references omitted:
they carry no control-protocol state). -/
structure SerialPort where
  name : Option (List Nat)
  nr : Nat
  is_console : Bool
  guest_connected : Bool
  host_connected : Bool
deriving Repr, DecidableEq

/-- Decoded control message, from `struct VirtioConsoleControl`. -/
structure VirtioConsoleControl where
  id : Nat
  event : Nat
  value : Nat
deriving Repr, DecidableEq

/-- Message emitted on the host-to-guest control queue, with its extra
payload bytes. -/
structure CtrlMsg where
  id : Nat
  event : Nat
  value : Nat
  extra : List Nat
deriving Repr, DecidableEq

/-- Embeds `find_port_by_nr`: first port whose `nr` equals the argument. -/
def find_port_by_nr (ports : List SerialPort) (nr : Nat) : Option SerialPort :=
  ports.find? (fun p => p.nr == nr)

/-- Mutation of the port found by `find_port_by_nr` (the source mutates the
shared `Arc<Mutex<SerialPort>>` returned by the lookup): update the first
port whose `nr` matches. -/
def set_guest_connected : List SerialPort → Nat → Bool → List SerialPort
  | [], _, _ => []
  | p :: rest, nr, v =>
    if p.nr == nr then { p with guest_connected := v } :: rest
    else p :: set_guest_connected rest nr v

/-- Embeds `SerialControlHandler::handle_control_message`: returns the
updated ports vector and the list of messages emitted on the
host-to-guest control queue, in emission order. -/
def handle_control_message (ports : List SerialPort) (ctrl : VirtioConsoleControl) :
    List SerialPort × List CtrlMsg :=
  if ctrl.event == VIRTIO_CONSOLE_DEVICE_READY then
    if ctrl.value == 0 then (ports, [])
    else (ports, ports.map (fun p => ⟨p.nr, VIRTIO_CONSOLE_PORT_ADD, 1, []⟩))
  else
    match find_port_by_nr ports ctrl.id with
    | none => (ports, [])
    | some port =>
      if ctrl.event == VIRTIO_CONSOLE_PORT_READY then
        if ctrl.value == 0 then (ports, [])
        else
          (ports,
            (if port.is_console then [⟨port.nr, VIRTIO_CONSOLE_CONSOLE_PORT, 1, []⟩] else [])
            ++ (match port.name with
                | some nm => [⟨port.nr, VIRTIO_CONSOLE_PORT_NAME, 1, nm ++ [0]⟩]
                | none => [])
            ++ (if port.host_connected then [⟨port.nr, VIRTIO_CONSOLE_PORT_OPEN, 1, []⟩] else []))
      else if ctrl.event == VIRTIO_CONSOLE_PORT_OPEN then
        (set_guest_connected ports ctrl.id (ctrl.value != 0), [])
      else (ports, [])

/-- C5: a `DEVICE_READY` control message with nonzero value makes the device
emit exactly one `PORT_ADD(nr, 1)` message per port, in the order the ports
are stored; with value zero nothing is emitted; port state never changes. -/
theorem c5_device_ready_emits_port_add (ports : List SerialPort) (id v : Nat) :
    handle_control_message ports ⟨id, VIRTIO_CONSOLE_DEVICE_READY, v⟩
      = (ports,
         if v = 0 then []
         else ports.map (fun p => ⟨p.nr, VIRTIO_CONSOLE_PORT_ADD, 1, []⟩)) := by
  by_cases hv : v = 0 <;>
    simp [handle_control_message, VIRTIO_CONSOLE_DEVICE_READY, hv]

/-- C6: a `PORT_READY(id, v)` message with `v ≠ 0` whose `id` matches an
existing port makes the device emit, in this order: `CONSOLE_PORT(id, 1)` if
the port is a console, `PORT_NAME(id, 1)` with the UTF-8 name followed by a
single NUL byte as extra payload if the port has a name, and
`PORT_OPEN(id, 1)` if the port is host-connected; with `v = 0` nothing is
emitted. Port state never changes. -/
theorem c6_port_ready_emissions (ports : List SerialPort) (id v : Nat) (p : SerialPort)
    (hp : find_port_by_nr ports id = some p) :
    handle_control_message ports ⟨id, VIRTIO_CONSOLE_PORT_READY, v⟩
      = (ports,
         if v = 0 then []
         else
           (if p.is_console then [⟨p.nr, VIRTIO_CONSOLE_CONSOLE_PORT, 1, []⟩] else [])
           ++ (match p.name with
               | some nm => [⟨p.nr, VIRTIO_CONSOLE_PORT_NAME, 1, nm ++ [0]⟩]
               | none => [])
           ++ (if p.host_connected then [⟨p.nr, VIRTIO_CONSOLE_PORT_OPEN, 1, []⟩] else [])) := by
  by_cases hv : v = 0 <;>
    simp [handle_control_message, VIRTIO_CONSOLE_PORT_READY,
      VIRTIO_CONSOLE_DEVICE_READY, hp, hv]

theorem c6_port_ready_emissions_witness :
    handle_control_message
        [⟨some [104, 118, 99, 48], 0, true, false, true⟩]
        ⟨0, VIRTIO_CONSOLE_PORT_READY, 1⟩
      = ([⟨some [104, 118, 99, 48], 0, true, false, true⟩],
         [⟨0, VIRTIO_CONSOLE_CONSOLE_PORT, 1, []⟩,
          ⟨0, VIRTIO_CONSOLE_PORT_NAME, 1, [104, 118, 99, 48, 0]⟩,
          ⟨0, VIRTIO_CONSOLE_PORT_OPEN, 1, []⟩]) := by
  have h := c6_port_ready_emissions
    [⟨some [104, 118, 99, 48], 0, true, false, true⟩] 0 1
    ⟨some [104, 118, 99, 48], 0, true, false, true⟩ (by decide)
  simpa using h

/-- C10: a control message whose event is not `DEVICE_READY` and whose id
matches no port leaves every port unchanged and emits nothing. -/
theorem c10_unknown_port_no_effect (ports : List SerialPort) (ctrl : VirtioConsoleControl)
    (he : ctrl.event ≠ VIRTIO_CONSOLE_DEVICE_READY)
    (hid : ∀ p ∈ ports, p.nr ≠ ctrl.id) :
    handle_control_message ports ctrl = (ports, []) := by
  have hfind : find_port_by_nr ports ctrl.id = none := by
    rw [find_port_by_nr, List.find?_eq_none]
    intro p hp
    simpa using hid p hp
  simp [handle_control_message, hfind, he]

theorem c10_unknown_port_no_effect_witness :
    handle_control_message
        [⟨some [104, 118, 99, 48], 0, true, false, true⟩,
         ⟨none, 1, false, true, false⟩]
        ⟨7, VIRTIO_CONSOLE_PORT_OPEN, 1⟩
      = ([⟨some [104, 118, 99, 48], 0, true, false, true⟩,
          ⟨none, 1, false, true, false⟩], []) := by
  exact c10_unknown_port_no_effect _ _ (by decide) (by decide)

/-!
Serial port input path (`SerialPortHandler::input_handle_internal`).
The receive virtqueue is an external collaborator: it is modelled as the
list of available descriptor chains, popped front first (`pop_avail`
returning a chain with `desc_num == 0` corresponds to the empty list).
Copies into guest memory are recorded as `WriteRec` entries and the
`add_used` calls as `UsedRec` entries.
-/

/-- One entry of a descriptor chain's `in_iovec` (guest address, length). -/
structure ElemIov where
  addr : Nat
  len : Nat
deriving Repr, DecidableEq

/-- One available descriptor chain of the receive queue. -/
structure Element where
  index : Nat
  in_iovec : List ElemIov
deriving Repr, DecidableEq

/-- One write of bytes to guest memory via `mem_space.write`. -/
structure WriteRec where
  addr : Nat
  data : List Nat
deriving Repr, DecidableEq

/-- One `add_used` call: descriptor index, used length, and the guest-memory
writes performed for this chain. -/
structure UsedRec where
  index : Nat
  len : Nat
  writes : List WriteRec
deriving Repr, DecidableEq

/-- Inner for-loop of `input_handle_internal` over one chain's in-iovecs:
`written` mirrors `written_count`; returns the final `written_count` and the
writes performed. -/
def write_elem_iovs (count : Nat) (buffer : List Nat) :
    List ElemIov → Nat → Nat × List WriteRec
  | [], written => (written, [])
  | elem_iov :: rest, written =>
    let allow := min (written + elem_iov.len) count
    let slice := (buffer.drop written).take (allow - written)
    if count ≤ allow then (allow, [⟨elem_iov.addr, slice⟩])
    else
      let r := write_elem_iovs count buffer rest allow
      (r.1, ⟨elem_iov.addr, slice⟩ :: r.2)

/-- Outer loop of `input_handle_internal` over the available chains; returns
the remaining queue and the `add_used` records in order. -/
def input_handle_loop (buffer : List Nat) : List Element → List Element × List UsedRec
  | [] => ([], [])
  | elem :: rest =>
    let count := buffer.length
    let w := write_elem_iovs count buffer elem.in_iovec 0
    if count ≤ w.1 then (rest, [⟨elem.index, w.1, w.2⟩])
    else
      let r := input_handle_loop buffer rest
      (r.1, ⟨elem.index, w.1, w.2⟩ :: r.2)

/-- Embeds `SerialPortHandler::input_handle_internal`: the early-return
condition is the source's `count == 0 || self.port.is_some() && !...guest_connected`. -/
def input_handle_internal (port : Option SerialPort) (buffer : List Nat)
    (queue : List Element) : List Element × List UsedRec :=
  if buffer.length == 0
      || (match port with | some p => !p.guest_connected | none => false) then
    (queue, [])
  else input_handle_loop buffer queue

lemma write_elem_iovs_len (buffer : List Nat) (iovs : List ElemIov) :
    ∀ written, written ≤ buffer.length →
      (write_elem_iovs buffer.length buffer iovs written).1
        = written
          + (((write_elem_iovs buffer.length buffer iovs written).2.map
              (fun w => w.data.length)).sum) := by
  induction iovs with
  | nil => intro written _; simp [write_elem_iovs]
  | cons elem_iov rest ih =>
    intro written hw
    simp only [write_elem_iovs]
    have hslice :
        ((buffer.drop written).take
          (min (written + elem_iov.len) buffer.length - written)).length
          = min (written + elem_iov.len) buffer.length - written := by
      simp only [List.length_take, List.length_drop]
      omega
    by_cases hstop : buffer.length ≤ min (written + elem_iov.len) buffer.length
    · simp only [if_pos hstop, List.map_cons, List.map_nil, List.sum_cons, List.sum_nil,
        hslice]
      omega
    · simp only [if_neg hstop, List.map_cons, List.sum_cons, hslice]
      have := ih (min (written + elem_iov.len) buffer.length) (by omega)
      omega

lemma input_handle_loop_used_len (buffer : List Nat) (queue : List Element) :
    ∀ u ∈ (input_handle_loop buffer queue).2,
      u.len = (u.writes.map (fun w => w.data.length)).sum := by
  induction queue with
  | nil => intro u hu; simp [input_handle_loop] at hu
  | cons elem rest ih =>
    intro u hu
    simp only [input_handle_loop] at hu
    by_cases hstop :
        buffer.length ≤ (write_elem_iovs buffer.length buffer elem.in_iovec 0).1
    · simp only [if_pos hstop, List.mem_singleton] at hu
      subst hu
      simpa using write_elem_iovs_len buffer elem.in_iovec 0 (Nat.zero_le _)
    · simp only [if_neg hstop, List.mem_cons] at hu
      rcases hu with hu | hu
      · subst hu
        simpa using write_elem_iovs_len buffer elem.in_iovec 0 (Nat.zero_le _)
      · exact ih u hu

/-- C7: if the input buffer is empty or the port is not guest-connected, the
input handler pops no receive descriptor (queue unchanged, nothing marked
used); otherwise every chain marked used has `add_used` length equal to the
number of bytes copied from the input buffer into that chain's in-iovecs. -/
theorem c7_input_add_used_len (port : Option SerialPort) (buffer : List Nat)
    (queue : List Element) :
    ((buffer = [] ∨ ∃ p, port = some p ∧ p.guest_connected = false) →
      input_handle_internal port buffer queue = (queue, [])) ∧
    (∀ u ∈ (input_handle_internal port buffer queue).2,
      u.len = (u.writes.map (fun w => w.data.length)).sum) := by
  constructor
  · intro h
    rcases h with h | ⟨p, hp, hg⟩
    · subst h; simp [input_handle_internal]
    · subst hp; simp [input_handle_internal, hg]
  · intro u hu
    rw [input_handle_internal.eq_def] at hu
    split at hu
    · simp at hu
    · exact input_handle_loop_used_len buffer queue u hu

theorem c7_input_add_used_len_witness :
    input_handle_internal (some ⟨none, 1, false, false, true⟩) [1, 2]
        [⟨0, [⟨100, 8⟩]⟩]
      = ([⟨0, [⟨100, 8⟩]⟩], []) ∧
    (⟨0, 3, [⟨100, [1, 2]⟩, ⟨200, [3]⟩]⟩ : UsedRec).len
      = ((⟨0, 3, [⟨100, [1, 2]⟩, ⟨200, [3]⟩]⟩ : UsedRec).writes.map
          (fun w => w.data.length)).sum := by
  constructor
  · exact (c7_input_add_used_len (some ⟨none, 1, false, false, true⟩) [1, 2]
      [⟨0, [⟨100, 8⟩]⟩]).1 (Or.inr ⟨_, rfl, rfl⟩)
  · exact (c7_input_add_used_len (some ⟨none, 1, false, true, false⟩) [1, 2, 3]
      [⟨0, [⟨100, 2⟩, ⟨200, 5⟩]⟩]).2 _ (by decide)

/-!
AIO engine, from `util/src/aio/mod.rs`.

The engine owns two linked lists (`super::link_list`, whose source is not
part of this excerpt). Modelled from the spec: `pending` (`aio_in_queue`)
and `in_flight` (`aio_in_flight`) are doubly-linked lists with head/tail
insertion and removal and O(1) `unlink`; they are embedded as Lean lists.
`aio_in_queue` is stored tail-first (the Lean head is the list's tail, the
next node `pop_tail` returns; `add_head` appends at the Lean tail) so that
the drain loop reads the queue front-to-back. `aio_in_flight` is stored
head-first (Lean head = list head).

The backend (`AioContext::submit`/`get_events`) and the kernel raw
read/write are external; their answers are oracle inputs, so theorems
quantify over every possible backend behaviour. A call of the completion
function is recorded as a `(user_data, result)` trace entry. -/

/-- Request opcode, from `pub enum OpCode`. -/
inductive OpCode where
  | Noop
  | Preadv
  | Pwritev
  | Fdsync
deriving Repr, DecidableEq

/-- AIO control block, from `pub struct AioCb` (the `iocompletecb` payload
is not modelled: completions are identified by `user_data`). -/
structure AioCb where
  last_aio : Bool
  file_fd : Nat
  opcode : OpCode
  iovec : List Iovec
  offset : Nat
  nbytes : Nat
  user_data : Nat
deriving Repr, DecidableEq

/-- Completion event, from `pub struct AioEvent`. -/
structure AioEvent where
  user_data : Nat
  status : Int
  res : Int
deriving Repr, DecidableEq

/-- Outcome of one backend `submit` call (oracle input). -/
inductive SubmitResult where
  | ok (nr : Nat)
  | err
deriving Repr, DecidableEq

/-- Engine list state (see the representation note above). -/
structure AioState where
  aio_in_queue : List AioCb
  aio_in_flight : List AioCb
deriving Repr, DecidableEq

/-- Fixed in-flight capacity, set by `Aio::new`. -/
def maxEvents : Nat := 128

/-- State constructed by `Aio::new`: both lists empty. -/
def Aio.new : AioState := ⟨[], []⟩

/-- The `nbytes as i64` cast in `Aio::handle`. -/
def toI64 (n : Nat) : Int :=
  if n % 2 ^ 64 < 2 ^ 63 then ((n % 2 ^ 64 : Nat) : Int)
  else ((n % 2 ^ 64 : Nat) : Int) - 2 ^ 64

/-- Inner for-loop of `process_list`: up to `k` iterations of pop from the
pending tail, push at the in-flight head, collect into `iocbs`. Returns new
pending, new in-flight, and the batch in submission order. -/
def fillBatch : Nat → List AioCb → List AioCb → List AioCb × List AioCb × List AioCb
  | 0, q, f => (q, f, [])
  | _ + 1, [], f => ([], f, [])
  | k + 1, x :: q, f =>
    let r := fillBatch k q (x :: f)
    (r.1, r.2.1, x :: r.2.2)

/-- Push-back loop of `process_list`: `count` iterations of pop from the
in-flight head (if any), append at the pending tail. -/
def pushBack : Nat → List AioCb → List AioCb → List AioCb × List AioCb
  | 0, q, f => (q, f)
  | c + 1, q, [] => pushBack c q []
  | c + 1, q, x :: f => pushBack c (x :: q) f

/-- One iteration of the `process_list` while-loop, given the backend's
answer to its one `submit` call. Returns the new state, the completions
invoked (submission-error path fails one request with `-1`), and whether
the loop continues. -/
def drainOnce (st : AioState) (resp : SubmitResult) :
    AioState × List (Nat × Int) × Bool :=
  let r := fillBatch (maxEvents - st.aio_in_flight.length) st.aio_in_queue st.aio_in_flight
  match resp with
  | SubmitResult.ok nr =>
    let pb := pushBack (r.2.2.length - nr) r.1 r.2.1
    if nr = 0 then (⟨pb.1, pb.2⟩, [], false)
    else (⟨pb.1, pb.2⟩, [], true)
  | SubmitResult.err =>
    let pb := pushBack (r.2.2.length - 0) r.1 r.2.1
    match pb.1 with
    | [] => (⟨[], pb.2⟩, [], true)
    | x :: q1 => (⟨q1, pb.2⟩, [(x.user_data, -1)], true)

/-- Embeds `Aio::process_list`. Each while-loop iteration performs exactly
one backend `submit`, so a run is driven by the list of backend answers:
the loop stops at a break, or when the guard fails, or when the supplied
backend answers are exhausted (a finite prefix of the execution). -/
def Aio.process_list : AioState → List SubmitResult → AioState × List (Nat × Int)
  | st, [] => (st, [])
  | st, resp :: rest =>
    if 0 < st.aio_in_queue.length ∧ st.aio_in_flight.length < maxEvents then
      let d := drainOnce st resp
      if d.2.2 then
        let r := Aio.process_list d.1 rest
        (r.1, d.2.1 ++ r.2)
      else (d.1, d.2.1)
    else (st, [])

/-- Oracle for `handle_misaligned_rw`: whether `memalign` succeeds, whether
the single aligned raw read/write succeeds, and the host memory the
caller's iovecs point into. -/
structure BounceEnv where
  allocOk : Bool
  rawOk : Bool
  mem : Mem

/-- Embeds `Aio::handle_misaligned_rw`, as the success of the bounce path:
allocate a bounce buffer of `nbytes`; for reads, raw-read then scatter into
the iovecs and require all `nbytes` copied; for writes, gather the iovecs
(requiring all `nbytes` copied) then raw-write. The bounce buffer is
modelled by its length (`List.replicate cb.nbytes 0`): the copy counts do
not depend on its contents. -/
def Aio.handle_misaligned_rw (cb : AioCb) (env : BounceEnv) : Bool :=
  match cb.opcode with
  | OpCode.Preadv =>
    if !env.allocOk then false
    else if !env.rawOk then false
    else (iov_from_buf_direct cb.iovec (List.replicate cb.nbytes 0) env.mem).2 == cb.nbytes
  | OpCode.Pwritev =>
    if !env.allocOk then false
    else if !((iov_to_buf_direct cb.iovec (List.replicate cb.nbytes 0) env.mem).2 == cb.nbytes) then
      false
    else env.rawOk
  | _ => false

/-- Embeds `Aio::rw_aio`: on a direct request with any iovec misaligned
w.r.t. `sector_size`, run the bounce path and complete with `0`/`-1`;
otherwise stamp `user_data` with the new node's identity (`newId` models
the node address), enqueue at the pending head, and drain when `last_aio`
is set or the lists reach capacity. -/
def Aio.rw_aio (st : AioState) (cb : AioCb) (newId : Nat) (sector_size : Nat)
    (direct : Bool) (env : BounceEnv) (subs : List SubmitResult) :
    AioState × List (Nat × Int) :=
  if direct && cb.iovec.any (fun iov =>
      !(iov.iov_base % sector_size == 0) || !(iov.iov_len % sector_size == 0)) then
    (st, [(cb.user_data, if Aio.handle_misaligned_rw cb env then 0 else -1)])
  else
    let node : AioCb := { cb with user_data := newId }
    let q := st.aio_in_queue ++ [node]
    if cb.last_aio = true ∨ maxEvents ≤ q.length + st.aio_in_flight.length then
      Aio.process_list ⟨q, st.aio_in_flight⟩ subs
    else (⟨q, st.aio_in_flight⟩, [])

/-- Event loop of `Aio::handle`: for each reaped event, the node is the one
whose stamped `user_data` the event carries (the source recovers it by
dereferencing that pointer; the lookup is by identity and total whenever
events name in-flight nodes). Success means `status == 0` and `res` equal
to the node's `nbytes as i64`; the completion runs with `res` on success
and `-1` otherwise, and the node is unlinked from the in-flight list. -/
def handleEvents : List AioCb → List AioEvent → List AioCb × List (Nat × Int) × Bool
  | flight, [] => (flight, [], false)
  | flight, e :: rest =>
    match flight.find? (fun nd => nd.user_data == e.user_data) with
    | some nd =>
      let success := e.status == 0 && e.res == toI64 nd.nbytes
      let r : Int := if success then e.res else -1
      let flight1 := flight.eraseP (fun x => x.user_data == e.user_data)
      let t := handleEvents flight1 rest
      (t.1, (e.user_data, r) :: t.2.1, success || t.2.2)
    | none =>
      handleEvents flight rest

/-- Embeds `Aio::handle`: reap the backend events, then `process_list`.
Returns the new state, the completion trace, and the `done` flag. -/
def Aio.handle (st : AioState) (events : List AioEvent) (subs : List SubmitResult) :
    AioState × List (Nat × Int) × Bool :=
  let t := handleEvents st.aio_in_flight events
  let r := Aio.process_list ⟨st.aio_in_queue, t.1⟩ subs
  (r.1, t.2.1 ++ r.2, t.2.2)

/-- Loop of `rw_sync` over the iovecs: `raws` answers the `idx`-th raw
read/write call; `off` advances by `iov_len` after each successful call;
the loop stops at the first negative result. Returns the final `r` and the
trace of raw calls `(iov_base, iov_len, offset)`. -/
def rw_sync_loop (raws : Nat → Int) : List Iovec → Nat → Nat → Int × List (Nat × Nat × Nat)
  | [], _, _ => (0, [])
  | iov :: rest, idx, off =>
    let r := raws idx
    if r < 0 then (r, [(iov.iov_base, iov.iov_len, off)])
    else
      match rest with
      | [] => (r, [(iov.iov_base, iov.iov_len, off)])
      | _ =>
        let t := rw_sync_loop raws rest (idx + 1) (off + iov.iov_len)
        (t.1, (iov.iov_base, iov.iov_len, off) :: t.2)

/-- Embeds `Aio::rw_sync`: the synchronous fallback. Returns the completion
trace (always exactly one `complete_func` call, with the final `ret`) and
the trace of raw read/write calls performed. -/
def Aio.rw_sync (cb : AioCb) (raws : Nat → Int) :
    List (Nat × Int) × List (Nat × Nat × Nat) :=
  match cb.opcode with
  | OpCode.Preadv =>
    let t := rw_sync_loop raws cb.iovec 0 cb.offset
    ([(cb.user_data, t.1)], t.2)
  | OpCode.Pwritev =>
    let t := rw_sync_loop raws cb.iovec 0 cb.offset
    ([(cb.user_data, t.1)], t.2)
  | _ => ([(cb.user_data, -1)], [])

/-- One owner call into the engine (the public operations the engine
exposes), with the oracle answers it consumes. -/
inductive AioOp where
  | opRw (cb : AioCb) (newId : Nat) (sector_size : Nat) (direct : Bool)
      (env : BounceEnv) (subs : List SubmitResult)
  | opProcess (subs : List SubmitResult)
  | opHandle (events : List AioEvent) (subs : List SubmitResult)

/-- State reached by one engine operation. -/
def applyOp (st : AioState) : AioOp → AioState
  | AioOp.opRw cb newId sector_size direct env subs =>
    (Aio.rw_aio st cb newId sector_size direct env subs).1
  | AioOp.opProcess subs => (Aio.process_list st subs).1
  | AioOp.opHandle events subs => (Aio.handle st events subs).1

lemma fillBatch_eq (k : Nat) (q f : List AioCb) :
    fillBatch k q f = (q.drop k, (q.take k).reverse ++ f, q.take k) := by
  induction k generalizing q f with
  | zero => simp [fillBatch]
  | succ k ih =>
    cases q with
    | nil => simp [fillBatch]
    | cons x q => simp [fillBatch, ih, List.append_assoc]

lemma pushBack_eq (c : Nat) (q f : List AioCb) :
    pushBack c q f = ((f.take c).reverse ++ q, f.drop c) := by
  induction c generalizing q f with
  | zero => simp [pushBack]
  | succ c ih =>
    cases f with
    | nil => simp [pushBack, ih]
    | cons x f => simp [pushBack, ih, List.append_assoc]

lemma fill_push_queue (q f : List AioCb) (k n : Nat) (hq : n ≤ q.length) (hk : n ≤ k) :
    ((((q.take k).reverse ++ f).take ((q.take k).length - n)).reverse ++ q.drop k)
      = q.drop n := by
  have hL : (q.take k).length = min k q.length := List.length_take _ _
  rw [List.take_append_of_le_length (by simp)]
  rw [List.take_reverse]
  have h1 : (q.take k).length - ((q.take k).length - n) = n := by omega
  rw [h1, List.reverse_reverse, List.drop_take]
  have hdk : q.drop k = List.drop (k - n) (q.drop n) := by
    rw [List.drop_drop]; congr 1; omega
  rw [hdk, List.take_append_drop]

lemma fill_push_flight (q f : List AioCb) (k n : Nat) (hq : n ≤ q.length) (hk : n ≤ k) :
    (((q.take k).reverse ++ f).drop ((q.take k).length - n)) = (q.take n).reverse ++ f := by
  rw [List.drop_append_of_le_length (by simp)]
  rw [List.drop_reverse]
  have h1 : (q.take k).length - ((q.take k).length - n) = n := by
    have hL : (q.take k).length = min k q.length := List.length_take _ _
    omega
  rw [h1, List.take_take]
  have : min n k = n := by omega
  rw [this]

/-- Closed form of one drain iteration with a (possibly partial) successful
submit of `n` requests: the `n` oldest pending requests move to the
in-flight head (newest first) and the rest of the pending queue is exactly
the original minus those `n`, in unchanged order. -/
lemma drainOnce_ok_eq (q f : List AioCb) (n : Nat)
    (hn : n ≤ min (maxEvents - f.length) q.length) :
    drainOnce ⟨q, f⟩ (SubmitResult.ok n)
      = (⟨q.drop n, (q.take n).reverse ++ f⟩, [], if n = 0 then false else true) := by
  have hk : n ≤ maxEvents - f.length := le_trans hn (Nat.min_le_left _ _)
  have hq : n ≤ q.length := le_trans hn (Nat.min_le_right _ _)
  have hQ := fill_push_queue q f (maxEvents - f.length) n hq hk
  have hF := fill_push_flight q f (maxEvents - f.length) n hq hk
  simp only [drainOnce, fillBatch_eq, pushBack_eq]
  rw [hQ, hF]
  by_cases hn0 : n = 0 <;> simp [hn0]

/-- Every drain iteration leaves the pending queue a suffix-in-order of what
it was (some number of oldest requests removed), and every completion it
invokes is a `-1` completion of a request that was pending. -/
lemma drainOnce_cases (st : AioState) (resp : SubmitResult) :
    ∃ j, (drainOnce st resp).1.aio_in_queue = st.aio_in_queue.drop j
      ∧ ∀ c ∈ (drainOnce st resp).2.1,
          ∃ x ∈ st.aio_in_queue, x.user_data = c.1 ∧ c.2 = -1 := by
  obtain ⟨q, f⟩ := st
  cases resp with
  | ok n =>
    by_cases hn : n ≤ min (maxEvents - f.length) q.length
    · refine ⟨n, ?_, ?_⟩
      · rw [drainOnce_ok_eq q f n hn]
      · rw [drainOnce_ok_eq q f n hn]
        intro c hc
        simp at hc
    · have hc0 : (q.take (maxEvents - f.length)).length - n = 0 := by
        have h2 := List.length_take (maxEvents - f.length) q
        omega
      have hn0 : n ≠ 0 := fun h0 => hn (by simp [h0])
      refine ⟨maxEvents - f.length, ?_, ?_⟩
      · simp only [drainOnce, fillBatch_eq, pushBack_eq, hc0]
        simp [hn0]
      · simp only [drainOnce, fillBatch_eq, pushBack_eq, hc0]
        simp [hn0]
  | err =>
    have hid1 := fill_push_queue q f (maxEvents - f.length) 0 (Nat.zero_le _) (Nat.zero_le _)
    simp only [Nat.sub_zero, List.drop_zero] at hid1
    cases hq : q with
    | nil =>
      subst hq
      refine ⟨0, ?_, ?_⟩ <;>
      · simp only [drainOnce, fillBatch_eq, pushBack_eq, Nat.sub_zero]
        rw [hid1]
        simp
    | cons x rest =>
      subst hq
      refine ⟨1, ?_, ?_⟩
      · simp only [drainOnce, fillBatch_eq, pushBack_eq, Nat.sub_zero]
        rw [hid1]
        rfl
      · simp only [drainOnce, fillBatch_eq, pushBack_eq, Nat.sub_zero]
        rw [hid1]
        intro c hc
        have hc2 : c = (x.user_data, -1) := List.mem_singleton.mp hc
        subst hc2
        exact ⟨x, List.mem_cons_self x rest, rfl, rfl⟩

lemma drainOnce_flight_le (st : AioState) (resp : SubmitResult)
    (h : st.aio_in_flight.length ≤ maxEvents) :
    (drainOnce st resp).1.aio_in_flight.length ≤ maxEvents := by
  obtain ⟨q, f⟩ := st
  simp only at h
  have hlen : ∀ c : Nat,
      (((q.take (maxEvents - f.length)).reverse ++ f).drop c).length ≤ maxEvents := by
    intro c
    have h1 : (q.take (maxEvents - f.length)).length ≤ maxEvents - f.length :=
      List.length_take_le _ _
    simp only [List.length_drop, List.length_append, List.length_reverse]
    omega
  cases resp with
  | ok n =>
    simp only [drainOnce, fillBatch_eq, pushBack_eq]
    by_cases h0 : n = 0
    · simpa [h0] using hlen ((q.take (maxEvents - f.length)).length - n)
    · simpa [h0] using hlen ((q.take (maxEvents - f.length)).length - n)
  | err =>
    simp only [drainOnce, fillBatch_eq, pushBack_eq]
    split
    · simpa using hlen ((q.take (maxEvents - f.length)).length - 0)
    · simpa using hlen ((q.take (maxEvents - f.length)).length - 0)

lemma process_list_flight_le (subs : List SubmitResult) :
    ∀ st : AioState, st.aio_in_flight.length ≤ maxEvents →
      (Aio.process_list st subs).1.aio_in_flight.length ≤ maxEvents := by
  induction subs with
  | nil => intro st h; simpa [Aio.process_list] using h
  | cons resp rest ih =>
    intro st h
    simp only [Aio.process_list]
    split
    · split
      · exact ih _ (drainOnce_flight_le st resp h)
      · exact drainOnce_flight_le st resp h
    · simpa using h

lemma process_list_queue_drop (subs : List SubmitResult) :
    ∀ st : AioState, ∃ j,
      (Aio.process_list st subs).1.aio_in_queue = st.aio_in_queue.drop j
      ∧ ∀ c ∈ (Aio.process_list st subs).2,
          ∃ x ∈ st.aio_in_queue, x.user_data = c.1 ∧ c.2 = -1 := by
  induction subs with
  | nil => intro st; exact ⟨0, by simp [Aio.process_list]⟩
  | cons resp rest ih =>
    intro st
    simp only [Aio.process_list]
    split
    · obtain ⟨j1, hq1, ht1⟩ := drainOnce_cases st resp
      split
      · obtain ⟨j2, hq2, ht2⟩ := ih (drainOnce st resp).1
        refine ⟨j1 + j2, ?_, ?_⟩
        · show (Aio.process_list (drainOnce st resp).1 rest).1.aio_in_queue = _
          rw [hq2, hq1, List.drop_drop]
        · show ∀ c ∈ (drainOnce st resp).2.1 ++ (Aio.process_list (drainOnce st resp).1 rest).2, _
          intro c hc
          simp only [List.mem_append] at hc
          rcases hc with hc | hc
          · exact ht1 c hc
          · obtain ⟨x, hx, hxc⟩ := ht2 c hc
            rw [hq1] at hx
            exact ⟨x, List.mem_of_mem_drop hx, hxc⟩
      · exact ⟨j1, hq1, ht1⟩
    · exact ⟨0, by simp⟩

lemma handleEvents_flight_len_le (events : List AioEvent) :
    ∀ fl : List AioCb, (handleEvents fl events).1.length ≤ fl.length := by
  induction events with
  | nil => intro fl; simp [handleEvents]
  | cons e rest ihe =>
    intro fl
    simp only [handleEvents]
    split
    · exact le_trans (ihe _) (List.Sublist.length_le (List.eraseP_sublist _))
    · exact ihe fl

/-- C2: in every engine state reachable by any sequence of `rw_aio`,
`process_list` and `handle` calls (over every possible backend behaviour),
the in-flight list never exceeds `max_events`, which `Aio::new` fixes
at 128. -/
theorem c2_in_flight_bounded (ops : List AioOp) :
    (ops.foldl applyOp Aio.new).aio_in_flight.length ≤ maxEvents ∧ maxEvents = 128 := by
  refine ⟨?_, rfl⟩
  have key : ∀ st : AioState, st.aio_in_flight.length ≤ maxEvents →
      ∀ op, (applyOp st op).aio_in_flight.length ≤ maxEvents := by
    intro st h op
    cases op with
    | opRw cb newId sector_size direct env subs =>
      simp only [applyOp, Aio.rw_aio]
      split
      · simpa using h
      · split
        · exact process_list_flight_le subs _ (by simpa using h)
        · simpa using h
    | opProcess subs => exact process_list_flight_le subs st h
    | opHandle events subs =>
      simp only [applyOp, Aio.handle]
      apply process_list_flight_le
      exact le_trans (handleEvents_flight_len_le events st.aio_in_flight) h
  have run : ∀ (l : List AioOp) (st : AioState), st.aio_in_flight.length ≤ maxEvents →
      (l.foldl applyOp st).aio_in_flight.length ≤ maxEvents := by
    intro l
    induction l with
    | nil => intro st h; simpa using h
    | cons op rest ihl => intro st h; exact ihl _ (key st h op)
  exact run ops Aio.new (by simp [Aio.new])

/-- C3: when a drain's backend submit reports `n` submitted out of a batch
of `k > n`, the `k - n` unsubmitted requests go back from the in-flight
head to the pending tail so that the pending queue is exactly the original
queue minus its `n` oldest requests, in unchanged relative (FIFO) order;
moreover any full `process_list` run only ever removes oldest requests from
the pending queue, leaving the remainder in its original relative order. -/
theorem c3_pending_fifo_preserved (q f : List AioCb) (n : Nat) (st : AioState)
    (subs : List SubmitResult)
    (hn : n < min (maxEvents - f.length) q.length) :
    (drainOnce ⟨q, f⟩ (SubmitResult.ok n)).1
        = ⟨q.drop n, (q.take n).reverse ++ f⟩
    ∧ (drainOnce ⟨q, f⟩ (SubmitResult.ok n)).2.1 = []
    ∧ ∃ j, (Aio.process_list st subs).1.aio_in_queue = st.aio_in_queue.drop j := by
  have h := drainOnce_ok_eq q f n (le_of_lt hn)
  refine ⟨by rw [h], by rw [h], ?_⟩
  obtain ⟨j, hj, _⟩ := process_list_queue_drop subs st
  exact ⟨j, hj⟩

/-- Concrete control block used by the witnesses below. -/
def cbW (ud : Nat) : AioCb := ⟨false, 3, OpCode.Preadv, [], 0, 512, ud⟩

theorem c3_pending_fifo_preserved_witness :
    (drainOnce ⟨[cbW 1, cbW 2, cbW 3], []⟩ (SubmitResult.ok 2)).1
        = ⟨[cbW 3], [cbW 2, cbW 1]⟩
    ∧ (drainOnce ⟨[cbW 1, cbW 2, cbW 3], []⟩ (SubmitResult.ok 2)).2.1 = []
    ∧ ∃ j, (Aio.process_list ⟨[cbW 4], []⟩ [SubmitResult.ok 1]).1.aio_in_queue
        = [cbW 4].drop j := by
  have h := c3_pending_fifo_preserved [cbW 1, cbW 2, cbW 3] [] 2 ⟨[cbW 4], []⟩
    [SubmitResult.ok 1] (by decide)
  exact ⟨by rw [h.1]; decide, h.2.1, h.2.2⟩


/-- C4: a direct `rw_aio` call with any iovec misaligned with respect to
`sector_size` never touches the pending queue: it runs the synchronous
bounce path and invokes the completion exactly once, with `0` when the
bounce copy and the single aligned raw read/write (and the bounce-buffer
allocation) all succeed and with `-1` on any intermediate failure. -/
theorem c4_misaligned_bounce (st : AioState) (cb : AioCb) (newId sector_size : Nat)
    (env : BounceEnv) (subs : List SubmitResult)
    (_hs : 0 < sector_size)
    (hm : cb.iovec.any (fun iov =>
      !(iov.iov_base % sector_size == 0) || !(iov.iov_len % sector_size == 0)) = true) :
    Aio.rw_aio st cb newId sector_size true env subs
      = (st, [(cb.user_data, if Aio.handle_misaligned_rw cb env then 0 else -1)])
    ∧ (cb.opcode = OpCode.Preadv →
        (Aio.handle_misaligned_rw cb env = true
          ↔ env.allocOk = true ∧ env.rawOk = true
            ∧ min (sumLens cb.iovec) cb.nbytes = cb.nbytes))
    ∧ (cb.opcode = OpCode.Pwritev →
        (Aio.handle_misaligned_rw cb env = true
          ↔ env.allocOk = true ∧ min (sumLens cb.iovec) cb.nbytes = cb.nbytes
            ∧ env.rawOk = true)) := by
  refine ⟨by simp [Aio.rw_aio, hm], ?_, ?_⟩
  · intro hop
    obtain ⟨a, rk, m⟩ := env
    cases a <;> cases rk <;>
      simp [Aio.handle_misaligned_rw, hop, iov_from_buf_direct_count]
  · intro hop
    obtain ⟨a, rk, m⟩ := env
    cases a <;> cases rk <;>
      simp [Aio.handle_misaligned_rw, hop, iov_to_buf_direct_count]

theorem c4_misaligned_bounce_witness :
    Aio.rw_aio ⟨[], []⟩ ⟨false, 3, OpCode.Pwritev, [⟨1, 2⟩], 0, 2, 5⟩ 7 512 true
        ⟨true, true, fun _ => 0⟩ []
      = (⟨[], []⟩, [(5, 0)]) := by
  have h := c4_misaligned_bounce ⟨[], []⟩ ⟨false, 3, OpCode.Pwritev, [⟨1, 2⟩], 0, 2, 5⟩
    7 512 ⟨true, true, fun _ => 0⟩ [] (by decide) (by decide)
  rw [h.1]
  decide

/-- C9: `rw_sync` on a control block whose opcode is neither `Preadv` nor
`Pwritev` (i.e. `Noop` or `Fdsync`) performs no raw I/O and invokes the
completion exactly once with `-1`; on a `Preadv`/`Pwritev` block with an
empty iovec list it invokes the completion exactly once with `0`. -/
theorem c9_rw_sync_fallthrough (cb : AioCb) (raws : Nat → Int) :
    ((cb.opcode = OpCode.Noop ∨ cb.opcode = OpCode.Fdsync) →
      Aio.rw_sync cb raws = ([(cb.user_data, -1)], [])) ∧
    ((cb.opcode = OpCode.Preadv ∨ cb.opcode = OpCode.Pwritev) → cb.iovec = [] →
      Aio.rw_sync cb raws = ([(cb.user_data, 0)], [])) := by
  constructor
  · rintro (h | h) <;> simp [Aio.rw_sync, h]
  · rintro (h | h) hv <;> simp [Aio.rw_sync, h, hv, rw_sync_loop]

theorem c9_rw_sync_fallthrough_witness :
    Aio.rw_sync ⟨false, 3, OpCode.Noop, [], 0, 0, 9⟩ (fun _ => 7) = ([(9, -1)], []) ∧
    Aio.rw_sync ⟨false, 3, OpCode.Preadv, [], 0, 0, 9⟩ (fun _ => 7) = ([(9, 0)], []) :=
  ⟨(c9_rw_sync_fallthrough ⟨false, 3, OpCode.Noop, [], 0, 0, 9⟩ (fun _ => 7)).1
      (Or.inl rfl),
   (c9_rw_sync_fallthrough ⟨false, 3, OpCode.Preadv, [], 0, 0, 9⟩ (fun _ => 7)).2
      (Or.inl rfl) rfl⟩

lemma toI64_small (n : Nat) (h : n < 2 ^ 63) : toI64 n = (n : Int) := by
  rw [toI64]
  have h64 : n % 2 ^ 64 = n := Nat.mod_eq_of_lt (by omega)
  rw [h64, if_pos h]

lemma find?_ud_cons_pos (a : AioCb) (fl : List AioCb) (u : Nat)
    (h : (a.user_data == u) = true) :
    (a :: fl).find? (fun x => x.user_data == u) = some a := by
  simp only [List.find?, h]

lemma find?_ud_cons_neg (a : AioCb) (fl : List AioCb) (u : Nat)
    (h : ¬ (a.user_data == u) = true) :
    (a :: fl).find? (fun x => x.user_data == u)
      = fl.find? (fun x => x.user_data == u) := by
  have hf : (a.user_data == u) = false := by
    cases hb : (a.user_data == u) <;> simp_all
  simp only [List.find?, hf]

lemma find?_ud_unique (nd : AioCb) (u : Nat) :
    ∀ fl : List AioCb, (fl.map (fun x => x.user_data)).Nodup →
      nd ∈ fl → nd.user_data = u →
      fl.find? (fun x => x.user_data == u) = some nd := by
  intro fl
  induction fl with
  | nil => intro _ h _; cases h
  | cons a fl ih =>
    intro hnodup hmem hu
    simp only [List.map_cons, List.nodup_cons] at hnodup
    rcases List.mem_cons.mp hmem with rfl | hmem2
    · exact find?_ud_cons_pos _ _ _ (by simp [hu])
    · have hn : ¬ (a.user_data == u) = true := by
        simp only [beq_iff_eq]
        intro hau
        apply hnodup.1
        have hm : nd.user_data ∈ fl.map (fun x => x.user_data) :=
          List.mem_map_of_mem _ hmem2
        rwa [hu, ← hau] at hm
      rw [find?_ud_cons_neg _ _ _ hn]
      exact ih hnodup.2 hmem2 hu

lemma find?_eraseP_ne (u u' : Nat) (hne : u' ≠ u) :
    ∀ fl : List AioCb,
      (fl.eraseP (fun x => x.user_data == u)).find? (fun x => x.user_data == u')
        = fl.find? (fun x => x.user_data == u') := by
  intro fl
  induction fl with
  | nil => simp
  | cons a fl ih =>
    by_cases ha : (a.user_data == u) = true
    · rw [List.eraseP_cons, ha, cond_true]
      have ha' : ¬ (a.user_data == u') = true := by
        simp only [beq_iff_eq] at ha ⊢
        rw [ha]
        exact fun h => hne h.symm
      rw [find?_ud_cons_neg _ _ _ ha']
    · have haf : (a.user_data == u) = false := by
        cases hb : (a.user_data == u) <;> simp_all
      rw [List.eraseP_cons, haf, cond_false]
      by_cases ha' : (a.user_data == u') = true
      · rw [find?_ud_cons_pos _ _ _ ha', find?_ud_cons_pos _ _ _ ha']
      · rw [find?_ud_cons_neg _ _ _ ha', find?_ud_cons_neg _ _ _ ha']
        exact ih

lemma eraseP_ud_nodup (fl : List AioCb) (u : Nat)
    (hfl : (fl.map (fun x => x.user_data)).Nodup) :
    ((fl.eraseP (fun x => x.user_data == u)).map (fun x => x.user_data)).Nodup :=
  List.Nodup.sublist (List.Sublist.map _ (List.eraseP_sublist fl)) hfl

lemma mem_eraseP_ud (fl : List AioCb) (u : Nat) (nd : AioCb)
    (hne : nd.user_data ≠ u) :
    nd ∈ fl.eraseP (fun x => x.user_data == u) ↔ nd ∈ fl :=
  List.mem_eraseP_of_neg (by simp [hne])

lemma ud_ne_of_nodup {e0 : AioEvent} {rest : List AioEvent} (e : AioEvent)
    (hnotin : e0.user_data ∉ rest.map (fun x => x.user_data)) (he : e ∈ rest) :
    e.user_data ≠ e0.user_data := by
  intro hc
  apply hnotin
  rw [← hc]
  exact List.mem_map_of_mem _ he

lemma handleEvents_trace_ids (events : List AioEvent) :
    ∀ fl c, c ∈ (handleEvents fl events).2.1 → ∃ e ∈ events, c.1 = e.user_data := by
  induction events with
  | nil => intro fl c hc; simp [handleEvents] at hc
  | cons e rest ih =>
    intro fl c hc
    simp only [handleEvents] at hc
    split at hc
    · simp only [List.mem_cons] at hc
      rcases hc with rfl | hc2
      · exact ⟨e, List.mem_cons_self e rest, rfl⟩
      · obtain ⟨e2, he2, hc3⟩ := ih _ c hc2
        exact ⟨e2, List.mem_cons_of_mem e he2, hc3⟩
    · obtain ⟨e2, he2, hc3⟩ := ih fl c hc
      exact ⟨e2, List.mem_cons_of_mem e he2, hc3⟩

lemma handleEvents_filter (events : List AioEvent) :
    ∀ fl : List AioCb,
      (fl.map (fun x => x.user_data)).Nodup →
      (events.map (fun e => e.user_data)).Nodup →
      (∀ e2 ∈ events, ∃ nd2 ∈ fl, nd2.user_data = e2.user_data) →
      ∀ e ∈ events, ∀ nd ∈ fl, nd.user_data = e.user_data →
        ((handleEvents fl events).2.1.filter (fun c => c.1 == e.user_data))
          = [(e.user_data,
              if (e.status == 0 && e.res == toI64 nd.nbytes) = true then e.res else -1)] := by
  induction events with
  | nil =>
    intro fl _ _ _ e he
    exact absurd he (List.not_mem_nil e)
  | cons e0 rest ih =>
    intro fl hfl hev hmem e he nd hnd hud
    obtain ⟨nd0, hnd0, hud0⟩ := hmem e0 (List.mem_cons_self e0 rest)
    have hfind : fl.find? (fun x => x.user_data == e0.user_data) = some nd0 :=
      find?_ud_unique nd0 e0.user_data fl hfl hnd0 hud0
    simp only [handleEvents, hfind]
    simp only [List.map_cons, List.nodup_cons] at hev
    rcases List.mem_cons.mp he with rfl | he2
    · have hnd_eq : nd = nd0 := by
        have h1 := find?_ud_unique nd e.user_data fl hfl hnd hud
        rw [hfind] at h1
        exact (Option.some.inj h1).symm
      subst hnd_eq
      have hrest : ((handleEvents (fl.eraseP fun x => x.user_data == e.user_data)
          rest).2.1.filter (fun c => c.1 == e.user_data)) = [] := by
        rw [List.filter_eq_nil_iff]
        intro c hc
        obtain ⟨e2, he2, hc2⟩ := handleEvents_trace_ids rest _ c hc
        simp only [beq_iff_eq]
        rw [hc2]
        exact ud_ne_of_nodup e2 hev.1 he2
      simp [List.filter_cons, hrest]
    · have hne0 : e.user_data ≠ e0.user_data := ud_ne_of_nodup e hev.1 he2
      have hhead : ¬ ((e0.user_data : Nat) == e.user_data) = true := by
        simp only [beq_iff_eq]
        exact fun h => hne0 h.symm
      rw [List.filter_cons]
      simp only [hhead, if_neg, Bool.false_eq_true, ite_false]
      have hmem1 : ∀ e2 ∈ rest, ∃ nd2 ∈ fl.eraseP (fun x => x.user_data == e0.user_data),
          nd2.user_data = e2.user_data := by
        intro e2 he2'
        obtain ⟨nd2, hnd2, hud2⟩ := hmem e2 (List.mem_cons_of_mem e0 he2')
        have hne2 : e2.user_data ≠ e0.user_data := ud_ne_of_nodup e2 hev.1 he2'
        exact ⟨nd2, (mem_eraseP_ud fl e0.user_data nd2 (by rw [hud2]; exact hne2)).mpr hnd2,
          hud2⟩
      have hnd1 : nd ∈ fl.eraseP (fun x => x.user_data == e0.user_data) :=
        (mem_eraseP_ud fl e0.user_data nd (by rw [hud]; exact hne0)).mpr hnd
      exact ih _ (eraseP_ud_nodup fl e0.user_data hfl) hev.2 hmem1 e he2 nd hnd1 hud

lemma handleEvents_done (events : List AioEvent) :
    ∀ fl : List AioCb,
      (fl.map (fun x => x.user_data)).Nodup →
      (events.map (fun e => e.user_data)).Nodup →
      (∀ e2 ∈ events, ∃ nd2 ∈ fl, nd2.user_data = e2.user_data) →
      ((handleEvents fl events).2.2 = true
        ↔ ∃ e ∈ events, ∃ nd ∈ fl, nd.user_data = e.user_data
            ∧ e.status = 0 ∧ e.res = toI64 nd.nbytes) := by
  induction events with
  | nil => intro fl _ _ _; simp [handleEvents]
  | cons e0 rest ih =>
    intro fl hfl hev hmem
    obtain ⟨nd0, hnd0, hud0⟩ := hmem e0 (List.mem_cons_self e0 rest)
    have hfind : fl.find? (fun x => x.user_data == e0.user_data) = some nd0 :=
      find?_ud_unique nd0 e0.user_data fl hfl hnd0 hud0
    simp only [handleEvents, hfind]
    simp only [List.map_cons, List.nodup_cons] at hev
    have hmem1 : ∀ e2 ∈ rest, ∃ nd2 ∈ fl.eraseP (fun x => x.user_data == e0.user_data),
        nd2.user_data = e2.user_data := by
      intro e2 he2'
      obtain ⟨nd2, hnd2, hud2⟩ := hmem e2 (List.mem_cons_of_mem e0 he2')
      have hne2 : e2.user_data ≠ e0.user_data := ud_ne_of_nodup e2 hev.1 he2'
      exact ⟨nd2, (mem_eraseP_ud fl e0.user_data nd2 (by rw [hud2]; exact hne2)).mpr hnd2,
        hud2⟩
    rw [Bool.or_eq_true, ih _ (eraseP_ud_nodup fl e0.user_data hfl) hev.2 hmem1]
    constructor
    · rintro (hs | ⟨e, he, nd, hnd2, hud, hst, hres⟩)
      · simp only [Bool.and_eq_true, beq_iff_eq] at hs
        exact ⟨e0, List.mem_cons_self _ _, nd0, hnd0, hud0, hs.1, hs.2⟩
      · have hne : e.user_data ≠ e0.user_data := ud_ne_of_nodup e hev.1 he
        exact ⟨e, List.mem_cons_of_mem _ he, nd,
          (mem_eraseP_ud fl e0.user_data nd (by rw [hud]; exact hne)).mp hnd2,
          hud, hst, hres⟩
    · rintro ⟨e, he, nd, hnd2, hud, hst, hres⟩
      rcases List.mem_cons.mp he with rfl | he2
      · left
        have hnd_eq : nd = nd0 := by
          have h1 := find?_ud_unique nd e.user_data fl hfl hnd2 hud
          rw [hfind] at h1
          exact (Option.some.inj h1).symm
        subst hnd_eq
        simp [hst, hres]
      · right
        have hne : e.user_data ≠ e0.user_data := ud_ne_of_nodup e hev.1 he2
        exact ⟨e, he2, nd,
          (mem_eraseP_ud fl e0.user_data nd (by rw [hud]; exact hne)).mpr hnd2,
          hud, hst, hres⟩

/-- C1: for every event reaped by `Aio::handle` (over any backend
behaviour), the completion callback runs exactly once for that request —
with the event's `res` when `status == 0` and `res` equals the request's
`nbytes`, and with `-1` in every other case — and `handle` returns true iff
at least one reaped event was such a success. Hypotheses: node identities
(`user_data` stamps) are distinct, each event names an in-flight node and
no two events name the same node (the source dereferences the stamped
pointer, so this is its safety precondition), and `nbytes` fits in `i64`
(the control-block invariant stated by the spec). -/
theorem c1_handle_completions (st : AioState) (events : List AioEvent)
    (subs : List SubmitResult)
    (hnodup : (((st.aio_in_queue ++ st.aio_in_flight).map (fun x => x.user_data))).Nodup)
    (hev : (events.map (fun e => e.user_data)).Nodup)
    (hmem : ∀ e ∈ events, ∃ nd ∈ st.aio_in_flight, nd.user_data = e.user_data)
    (hnb : ∀ nd ∈ st.aio_in_flight, nd.nbytes < 2 ^ 63) :
    (∀ e ∈ events, ∀ nd ∈ st.aio_in_flight, nd.user_data = e.user_data →
      ((Aio.handle st events subs).2.1.filter (fun c => c.1 == e.user_data))
        = [(e.user_data,
            if e.status = 0 ∧ e.res = (nd.nbytes : Int) then e.res else -1)])
    ∧ ((Aio.handle st events subs).2.2 = true
        ↔ ∃ e ∈ events, ∃ nd ∈ st.aio_in_flight,
            nd.user_data = e.user_data ∧ e.status = 0 ∧ e.res = (nd.nbytes : Int)) := by
  simp only [List.map_append] at hnodup
  have hflnodup : (st.aio_in_flight.map (fun x => x.user_data)).Nodup :=
    (List.nodup_append.mp hnodup).2.1
  have hdisj : (st.aio_in_queue.map (fun x => x.user_data)).Disjoint
      (st.aio_in_flight.map (fun x => x.user_data)) :=
    (List.nodup_append.mp hnodup).2.2
  constructor
  · intro e he nd hnd2 hud
    have h1 := handleEvents_filter events st.aio_in_flight hflnodup hev hmem e he nd hnd2 hud
    have hplnil : ((Aio.process_list
        ⟨st.aio_in_queue, (handleEvents st.aio_in_flight events).1⟩ subs).2.filter
          (fun c => c.1 == e.user_data)) = [] := by
      rw [List.filter_eq_nil_iff]
      intro c hc
      obtain ⟨j, _, ht⟩ := process_list_queue_drop subs
        ⟨st.aio_in_queue, (handleEvents st.aio_in_flight events).1⟩
      obtain ⟨x, hx, hxud, _⟩ := ht c hc
      simp only [beq_iff_eq]
      intro hceq
      have hin : e.user_data ∈ st.aio_in_queue.map (fun x => x.user_data) := by
        rw [← hceq, ← hxud]
        exact List.mem_map_of_mem _ hx
      have hfn : e.user_data ∈ st.aio_in_flight.map (fun x => x.user_data) := by
        rw [← hud]
        exact List.mem_map_of_mem _ hnd2
      exact hdisj hin hfn
    simp only [Aio.handle]
    rw [List.filter_append, h1, hplnil, List.append_nil]
    have hb := hnb nd hnd2
    rw [toI64_small nd.nbytes hb]
    by_cases hcond : e.status = 0 ∧ e.res = (nd.nbytes : Int)
    · rw [if_pos (by simp [hcond.1, hcond.2]), if_pos hcond]
    · rw [if_neg (by simp only [Bool.and_eq_true, beq_iff_eq]; exact hcond), if_neg hcond]
  · simp only [Aio.handle]
    rw [handleEvents_done events st.aio_in_flight hflnodup hev hmem]
    constructor
    · rintro ⟨e, he, nd, hnd2, hud, hst, hres⟩
      refine ⟨e, he, nd, hnd2, hud, hst, ?_⟩
      rwa [toI64_small nd.nbytes (hnb nd hnd2)] at hres
    · rintro ⟨e, he, nd, hnd2, hud, hst, hres⟩
      refine ⟨e, he, nd, hnd2, hud, hst, ?_⟩
      rwa [toI64_small nd.nbytes (hnb nd hnd2)]

theorem c1_handle_completions_witness :
    ((Aio.handle ⟨[], [cbW 7]⟩ [⟨7, 0, 512⟩] []).2.1.filter (fun c => c.1 == 7))
      = [(7, 512)]
    ∧ (Aio.handle ⟨[], [cbW 7]⟩ [⟨7, 0, 512⟩] []).2.2 = true := by
  have h := c1_handle_completions ⟨[], [cbW 7]⟩ [⟨7, 0, 512⟩] []
    (by decide) (by decide)
    (fun e he => ⟨cbW 7, by decide, by
      have : e = ⟨7, 0, 512⟩ := List.mem_singleton.mp he
      rw [this]; decide⟩)
    (fun nd hnd => by
      have : nd = cbW 7 := List.mem_singleton.mp hnd
      rw [this]; decide)
  constructor
  · have h1 := h.1 ⟨7, 0, 512⟩ (List.mem_singleton.mpr rfl) (cbW 7)
      (List.mem_singleton.mpr rfl) rfl
    simpa using h1
  · exact h.2.mpr ⟨⟨7, 0, 512⟩, List.mem_singleton.mpr rfl, cbW 7,
      List.mem_singleton.mpr rfl, rfl, rfl, rfl⟩

end StratoVirt
